import Mathlib

/-!
Verification development for the bhakti-tradition-map server
(src/server.js).  JavaScript strings are modelled as lists of
characters; JavaScript null is modelled with Option.  The checked-in
copy of server.js stores its non-ASCII string constants UTF-8
double-encoded; the constants appear here in their decoded form
(for example Liṅgāyat, Vīraśaiva).
-/

namespace Bhakti

/-- Character list of a string literal. -/
def chars (s : String) : List Char := s.data

/-- Characters matched by the JavaScript regex class backslash-s
(restricted to the ASCII whitespace that the repository's data uses). -/
def isWsChar (c : Char) : Bool :=
  c == ' ' || c == '\t' || c == '\n' || c == '\r' || c == '\x0b' || c == '\x0c'

/-- JavaScript String.prototype.toLowerCase, restricted to ASCII plus the
Indic-transliteration code points that occur in server.js. -/
def jsToLower (c : Char) : Char :=
  if c = 'Ī' then 'ī' else if c = 'Ā' then 'ā' else if c = 'Ś' then 'ś'
  else if c = 'Ṅ' then 'ṅ' else if c = 'Ṣ' then 'ṣ' else if c = 'Ṇ' then 'ṇ'
  else if c = 'Ḍ' then 'ḍ' else if c = 'Ḻ' then 'ḻ' else c.toLower

/-- JavaScript String.prototype.toUpperCase, same restriction. -/
def jsToUpper (c : Char) : Char :=
  if c = 'ī' then 'Ī' else if c = 'ā' then 'Ā' else if c = 'ś' then 'Ś'
  else if c = 'ṅ' then 'Ṅ' else if c = 'ṣ' then 'Ṣ' else if c = 'ṇ' then 'Ṇ'
  else if c = 'ḍ' then 'Ḍ' else if c = 'ḻ' then 'Ḻ' else c.toUpper

/-- Number of non-whitespace characters of a string. -/
def countNonWs (s : List Char) : Nat := s.countP (fun c => !isWsChar c)

/-- Leading-whitespace removal (left half of String.prototype.trim). -/
def jsTrimStart (s : List Char) : List Char := s.dropWhile isWsChar

/-- Trailing-whitespace removal (right half of String.prototype.trim). -/
def jsTrimEnd (s : List Char) : List Char := (s.reverse.dropWhile isWsChar).reverse

/-- JavaScript String.prototype.trim. -/
def jsTrim (s : List Char) : List Char := jsTrimEnd (jsTrimStart s)

/-- Worker for collapseWs; the flag records whether the scanner is inside
a whitespace run whose replacement space was already emitted. -/
def collapseWsGo : Bool → List Char → List Char
  | _, [] => []
  | inRun, c :: rest =>
    if isWsChar c then
      if inRun then collapseWsGo true rest else ' ' :: collapseWsGo true rest
    else c :: collapseWsGo false rest

/-- The replacement of every maximal whitespace run by a single space,
the JavaScript replace of regex backslash-s-plus with a space. -/
def collapseWs (s : List Char) : List Char := collapseWsGo false s

/-- Does the text start with the pattern (first argument the pattern)? -/
def listStartsWith : List Char → List Char → Bool
  | [], _ => true
  | _ :: _, [] => false
  | p :: ps, t :: ts => p == t && listStartsWith ps ts

/-- Substring containment, the JavaScript String.prototype.includes
(first argument the pattern, second the text). -/
def isSubstr (pat : List Char) : List Char → Bool
  | [] => pat.isEmpty
  | t :: ts => listStartsWith pat (t :: ts) || isSubstr pat ts

/-- Does the text end with the suffix? -/
def endsWithStr (suf s : List Char) : Bool := listStartsWith suf.reverse s.reverse

/-- Insertion into a JavaScript Set modelled as an insertion-ordered,
duplicate-free list. -/
def setAdd {α : Type} [BEq α] (s : List α) (x : α) : List α :=
  if s.contains x then s else s ++ [x]

/-- Case-insensitive substring containment, the semantics of testing a
literal pattern with the JavaScript regex flag i (first argument the
text, second the pattern). -/
def ciContainsStr (text pat : List Char) : Bool :=
  isSubstr (pat.map jsToLower) (text.map jsToLower)

theorem length_dropWhile_le' (p : Char → Bool) (l : List Char) :
    (l.dropWhile p).length ≤ l.length :=
  (List.dropWhile_sublist p).length_le

/-- Scan from the start of the tail of an opening parenthesis: the content
up to the first closing parenthesis and the remainder after it (none when
no closing parenthesis follows).  When the scan succeeds the dropped head
of the remainder is necessarily the closing parenthesis. -/
def splitClose (rest : List Char) : Option (List Char × List Char) :=
  match rest.dropWhile (fun c => !(c == ')')) with
  | _ :: after => some (rest.takeWhile (fun c => !(c == ')')), after)
  | [] => none

/-
The left-to-right regex scanners below either consume the head character
or jump past a whole match, so they recurse on shorter but not
structurally smaller lists.  Each carries an explicit fuel counter,
decremented once per step and initialized by its wrapper to the input
length plus one; since every step shortens the list, the zero-fuel case
is never reached on the wrapper's inputs.
-/

/-- Worker for removeLongParens. -/
def removeLongParensGo : Nat → List Char → List Char
  | 0, s => s
  | _ + 1, [] => []
  | fuel + 1, c :: rest =>
    if c = '(' then
      match splitClose rest with
      | some (content, after) =>
        if 50 ≤ content.length then removeLongParensGo fuel after
        else c :: removeLongParensGo fuel rest
      | none => c :: removeLongParensGo fuel rest
    else c :: removeLongParensGo fuel rest

/-- The JavaScript global replace of the regex matching a parenthetical
whose content is fifty or more non-parenthesis characters, replaced by
the empty string. -/
def removeLongParens (s : List Char) : List Char :=
  removeLongParensGo (s.length + 1) s

/-- Does the content of a parenthetical match the inside of the dialect
pattern, that is, one or more non-parenthesis characters, optional
whitespace, then the word dialect with an optional s, case-insensitively?
This is equivalent to: the lower-cased content ends in dialects with at
least one character before it, or ends in dialect with at least one
character before it. -/
def dialectContentOk (content : List Char) : Bool :=
  let L := content.map jsToLower
  (endsWithStr (chars "dialects") L && decide (8 < content.length))
  || (endsWithStr (chars "dialect") L && decide (7 < content.length))

/-- Worker for dialectScan. -/
def dialectScanGo : Nat → List Char → List (List Char) × List Char
  | 0, s => ([], s)
  | _ + 1, [] => ([], [])
  | fuel + 1, c :: rest =>
    if c = '(' then
      match splitClose rest with
      | some (content, after) =>
        if dialectContentOk content then
          let r := dialectScanGo fuel after
          (('(' :: (content ++ [')'])) :: r.1, r.2)
        else
          let r := dialectScanGo fuel rest
          (r.1, c :: r.2)
      | none =>
        let r := dialectScanGo fuel rest
        (r.1, c :: r.2)
    else
      let r := dialectScanGo fuel rest
      (r.1, c :: r.2)

/-- One left-to-right scan implementing both the global match and the
global replace of the dialect-parenthetical regex: the list of full
matches and the input with the matches removed. -/
def dialectScan (s : List Char) : List (List Char) × List Char :=
  dialectScanGo (s.length + 1) s

/-- Drop a leading letter s or S, the greedy optional s of the dialect
word pattern. -/
def dropOptionalS (l : List Char) : List Char :=
  match l with
  | c :: r => if jsToLower c = 's' then r else l
  | [] => l

/-- Worker for removeParenDialectWord. -/
def removeParenDialectWordGo : Nat → List Char → List Char
  | 0, s => s
  | _ + 1, [] => []
  | fuel + 1, c :: rest =>
    if c = '(' ∨ c = ')' then removeParenDialectWordGo fuel rest
    else if listStartsWith (chars "dialect") ((c :: rest).map jsToLower) then
      removeParenDialectWordGo fuel (dropOptionalS (rest.drop 6))
    else c :: removeParenDialectWordGo fuel rest

/-- The JavaScript global case-insensitive replace removing every opening
parenthesis, closing parenthesis, and occurrence of the word dialect with
an optional greedy s. -/
def removeParenDialectWord (s : List Char) : List Char :=
  removeParenDialectWordGo (s.length + 1) s

/-- If an optional whitespace run followed by a complete parenthetical
group starts at this position, the remainder after the closing
parenthesis. -/
def matchWsParen (s : List Char) : Option (List Char) :=
  match s.dropWhile isWsChar with
  | c :: r2 => if c = '(' then (splitClose r2).map (fun p => p.2) else none
  | [] => none

/-- Worker for removeParens. -/
def removeParensGo : Nat → List Char → List Char
  | 0, s => s
  | _ + 1, [] => []
  | fuel + 1, c :: rest =>
    match matchWsParen (c :: rest) with
    | some after => removeParensGo fuel after
    | none => c :: removeParensGo fuel rest

/-- The JavaScript global replace removing optional whitespace followed by
any complete parenthetical group. -/
def removeParens (s : List Char) : List Char :=
  removeParensGo (s.length + 1) s

/-- If a separator of the form one-or-more whitespace, the word and
case-insensitively, one-or-more whitespace starts at this position,
the remainder after the separator. -/
def matchAndSep (s : List Char) : Option (List Char) :=
  if (s.takeWhile isWsChar).isEmpty then none
  else
    match s.dropWhile isWsChar with
    | a :: n :: d :: r2 =>
      if jsToLower a = 'a' ∧ jsToLower n = 'n' ∧ jsToLower d = 'd' then
        if (r2.takeWhile isWsChar).isEmpty then none
        else some (r2.dropWhile isWsChar)
      else none
    | _ => none

/-- Worker for splitSeps: the JavaScript split on the separator regex of
comma, slash, semicolon, pipe, ampersand, or whitespace-delimited word
and, with the global and case-insensitive flags. -/
def splitSepsGo : Nat → List Char → List Char → List (List Char)
  | 0, _, cur => [cur.reverse]
  | _ + 1, [], cur => [cur.reverse]
  | fuel + 1, c :: rest, cur =>
    if c = ',' ∨ c = '/' ∨ c = ';' ∨ c = '|' ∨ c = '&' then
      cur.reverse :: splitSepsGo fuel rest []
    else if isWsChar c then
      match matchAndSep (c :: rest) with
      | some r' => cur.reverse :: splitSepsGo fuel r' []
      | none => splitSepsGo fuel rest (c :: cur)
    else splitSepsGo fuel rest (c :: cur)

def splitSeps (s : List Char) : List (List Char) := splitSepsGo (s.length + 1) s []

/-- Worker for splitOnPred, the JavaScript split on a class of
single characters. -/
def splitOnPredGo (p : Char → Bool) : List Char → List Char → List (List Char)
  | [], cur => [cur.reverse]
  | c :: rest, cur =>
    if p c then cur.reverse :: splitOnPredGo p rest []
    else splitOnPredGo p rest (c :: cur)

def splitOnPred (p : Char → Bool) (s : List Char) : List (List Char) :=
  splitOnPredGo p s []

/-- Worker for splitWsRuns, the JavaScript split on one-or-more
whitespace. -/
def splitWsRunsGo : Nat → List Char → List Char → List (List Char)
  | 0, _, cur => [cur.reverse]
  | _ + 1, [], cur => [cur.reverse]
  | fuel + 1, c :: rest, cur =>
    if isWsChar c then cur.reverse :: splitWsRunsGo fuel (rest.dropWhile isWsChar) []
    else splitWsRunsGo fuel rest (c :: cur)

def splitWsRuns (s : List Char) : List (List Char) := splitWsRunsGo (s.length + 1) s []

/-- If a separator of the form optional whitespace, slash, optional
whitespace starts at this position, the remainder after it. -/
def matchSlashSep (s : List Char) : Option (List Char) :=
  match s.dropWhile isWsChar with
  | c :: r2 => if c = '/' then some (r2.dropWhile isWsChar) else none
  | [] => none

/-- Worker for splitSlashWs, the JavaScript split on slash with optional
surrounding whitespace. -/
def splitSlashWsGo : Nat → List Char → List Char → List (List Char)
  | 0, _, cur => [cur.reverse]
  | _ + 1, [], cur => [cur.reverse]
  | fuel + 1, c :: rest, cur =>
    match matchSlashSep (c :: rest) with
    | some r' => cur.reverse :: splitSlashWsGo fuel r' []
    | none => splitSlashWsGo fuel rest (c :: cur)

def splitSlashWs (s : List Char) : List (List Char) :=
  splitSlashWsGo (s.length + 1) s []

/-- If a separator of the form optional whitespace, en-dash or em-dash,
optional whitespace, or else one-or-more whitespace, hyphen, one-or-more
whitespace, starts at this position, the remainder after it. -/
def matchDashSep (s : List Char) : Option (List Char) :=
  match s.dropWhile isWsChar with
  | c :: r2 =>
    if c = '–' ∨ c = '—' then some (r2.dropWhile isWsChar)
    else if c = '-' ∧ ¬ (s.takeWhile isWsChar).isEmpty then
      match r2 with
      | d :: _ => if isWsChar d then some (r2.dropWhile isWsChar) else none
      | [] => none
    else none
  | [] => none

/-- Worker for splitDashes, the JavaScript split on en-dash or em-dash
with optional surrounding whitespace, or hyphen with mandatory
surrounding whitespace. -/
def splitDashesGo : Nat → List Char → List Char → List (List Char)
  | 0, _, cur => [cur.reverse]
  | _ + 1, [], cur => [cur.reverse]
  | fuel + 1, c :: rest, cur =>
    match matchDashSep (c :: rest) with
    | some r' => cur.reverse :: splitDashesGo fuel r' []
    | none => splitDashesGo fuel rest (c :: cur)

def splitDashes (s : List Char) : List (List Char) :=
  splitDashesGo (s.length + 1) s []

/-- The anchored match of one-or-more non-open-parenthesis characters,
optional whitespace, then a parenthetical with non-empty content: the
pair of the text before the first open parenthesis and the content of
the group, or none when the pattern does not match. -/
def matchMainParen (s : List Char) : Option (List Char × List Char) :=
  let pre := s.takeWhile (fun c => !(c == '('))
  match s.dropWhile (fun c => !(c == '(')) with
  | _ :: r2 =>
    if pre.isEmpty then none
    else
      match splitClose r2 with
      | some (content, _) => if content.isEmpty then none else some (pre, content)
      | none => none
  | [] => none

def suffixWords : List (List Char) :=
  [chars "tradition", chars "movement", chars "devotion", chars "canon"]

/-- The anchored-at-end case-insensitive replace removing one-or-more
whitespace followed by one of the generic suffix words tradition,
movement, devotion, canon. -/
def stripTrailingSuffixWord (z : List Char) : List Char :=
  let r := z.reverse
  match suffixWords.find? (fun w => listStartsWith w.reverse (r.map jsToLower)) with
  | some w =>
    match r.drop w.length with
    | c :: _ =>
      if isWsChar c then ((r.drop w.length).dropWhile isWsChar).reverse else z
    | [] => z
  | none => z

/-- The fixed language-normalization table of server.js (keys lower-case). -/
def langNormTable : List (List Char × List Char) :=
  [(chars "brajbhasa", chars "Braj Bhasha"), (chars "brajbhasha", chars "Braj Bhasha"),
   (chars "braj bhasa", chars "Braj Bhasha"), (chars "braj", chars "Braj Bhasha"),
   (chars "brij bhasha", chars "Braj Bhasha"), (chars "brijbhasha", chars "Braj Bhasha"),
   (chars "hindii", chars "Hindi"), (chars "hindustani", chars "Hindi"),
   (chars "sanskirt", chars "Sanskrit"), (chars "sankrit", chars "Sanskrit"),
   (chars "sanskrit-derived", chars "Sanskrit"),
   (chars "bangla", chars "Bengali"), (chars "panjabi", chars "Punjabi"),
   (chars "tamizh", chars "Tamil"), (chars "telegu", chars "Telugu"),
   (chars "kannad", chars "Kannada"), (chars "gujrati", chars "Gujarati"),
   (chars "avadhi", chars "Awadhi"), (chars "maithali", chars "Maithili"),
   (chars "farsi", chars "Persian"), (chars "odiya", chars "Odia"),
   (chars "oriya", chars "Odia"), (chars "marwari", chars "Marwari"),
   (chars "sant bhasha", chars "Sant Bhasha"), (chars "kashmiri", chars "Kashmiri")]

/-- The fixed tradition-normalization table of server.js (keys lower-case). -/
def tradNormTable : List (List Char × List Char) :=
  [(chars "vaisnava", chars "Vaishnava"), (chars "vaiṣṇava", chars "Vaishnava"),
   (chars "vaishnavism", chars "Vaishnava"),
   (chars "saiva", chars "Shaiva"), (chars "śaiva", chars "Shaiva"),
   (chars "shaivism", chars "Shaiva"),
   (chars "siddhānta", chars "Siddhanta"), (chars "liṅgāyat", chars "Lingayat"),
   (chars "lingāyat", chars "Lingayat"),
   (chars "vārkari", chars "Varkari"), (chars "gauḍīya", chars "Gaudiya"),
   (chars "gaudīya", chars "Gaudiya"),
   (chars "vīraśaiva", chars "Virashaiva"), (chars "virasaiva", chars "Virashaiva"),
   (chars "āḻvārs", chars "Alvars"), (chars "alwars", chars "Alvars"),
   (chars "nāyanārs", chars "Nayanars"), (chars "nayanmars", chars "Nayanars")]

/-- Property lookup on a table object, modelled as association-list search. -/
def lookupTable (t : List (List Char × List Char)) (k : List Char) : Option (List Char) :=
  (t.find? (fun kv => kv.1 == k)).map (fun kv => kv.2)

def splitOnChar (sep : Char) (s : List Char) : List (List Char) :=
  splitOnPred (fun c => c == sep) s

/-- Upper-case the first character of a word (charAt zero to upper case
plus the unchanged remainder). -/
def capFirst : List Char → List Char
  | [] => []
  | c :: r => jsToUpper c :: r

/-- The title-case fallback of normalizeLanguageName: split on single
spaces, capitalize each piece, rejoin with single spaces. -/
def titleCaseJs (s : List Char) : List Char :=
  List.intercalate [' '] ((splitOnChar ' ' s).map capFirst)

/-- The cleanup of normalizeLanguageName: trim, delete every parenthesis
character, collapse whitespace runs to single spaces. -/
def cleanLanguageToken (name : List Char) : List Char :=
  collapseWs ((jsTrim name).filter (fun c => !(c == '(') && !(c == ')')))

/-- normalizeLanguageName from server.js.  A falsy input (the empty
string) is returned unchanged; a cleaned token shorter than two
characters gives null; a table hit gives the canonical spelling; any
other token is title-cased. -/
def normalizeLanguageName (name : List Char) : Option (List Char) :=
  if name.isEmpty then some name
  else
    let cleaned := cleanLanguageToken name
    if cleaned.length < 2 then none
    else
      match lookupTable langNormTable (cleaned.map jsToLower) with
      | some canon => some canon
      | none => some (titleCaseJs cleaned)

/-- The cleanup of normalizeTraditionName: trim and collapse whitespace
runs to single spaces. -/
def cleanTraditionToken (name : List Char) : List Char := collapseWs (jsTrim name)

/-- normalizeTraditionName from server.js.  Same structure as the
language normalizer, except that a token missing from the table is
returned cleaned but otherwise unchanged (no title-casing). -/
def normalizeTraditionName (name : List Char) : Option (List Char) :=
  if name.isEmpty then some name
  else
    let cleaned := cleanTraditionToken name
    if cleaned.length < 2 then none
    else
      match lookupTable tradNormTable (cleaned.map jsToLower) with
      | some canon => some canon
      | none => some cleaned

/-- A JavaScript value as far as the parsers inspect it: null or
undefined, a string, or any non-string value. -/
inductive JsVal where
  | vnull : JsVal
  | vstr : List Char → JsVal
  | vother : JsVal
deriving DecidableEq

def skipPhrases : List (List Char) :=
  [chars "derived terms", chars "influences", chars "other local", chars "sometimes",
   chars "spiritual vernacular", chars "common to", chars "words", chars "from eastern",
   chars "primary", chars "secondary"]

def exactSkipWords : List (List Char) :=
  [chars "primary", chars "secondary", chars "sometimes", chars "mostly", chars "mainly"]

/-- The per-candidate body of the language parser: trim, length floor,
narrative-filler skips, normalization, then insertion into the result
set when the normalized token is truthy and longer than one character. -/
def langAddToken (results : List (Option (List Char))) (part : List Char) :
    List (Option (List Char)) :=
  let cleaned := jsTrim part
  if cleaned.isEmpty ∨ cleaned.length < 2 then results
  else
    let lowerCleaned := cleaned.map jsToLower
    if skipPhrases.any (fun ph => isSubstr ph lowerCleaned) then results
    else if exactSkipWords.contains lowerCleaned then results
    else
      match normalizeLanguageName cleaned with
      | some n => if ¬ n.isEmpty ∧ 1 < n.length then setAdd results (some n) else results
      | none => results

/-- Extraction of the dialect candidates of one dialect-parenthetical
match: delete parentheses and the dialect word, trim, split on comma or
slash, keep trimmed pieces longer than one character. -/
def extractDialectTokens (m : List Char) : List (List Char) :=
  let inner := jsTrim (removeParenDialectWord m)
  (splitOnPred (fun c => c == ',' || c == '/') inner).foldl
    (fun acc p =>
      let cleaned := jsTrim p
      if ¬ cleaned.isEmpty ∧ 1 < cleaned.length then acc ++ [cleaned] else acc) []

/-- parseLanguageValue from server.js on a non-empty string: remove long
parentheticals, extract dialect parentheticals, remove the remaining
parentheticals, split on the separators, then filter and normalize every
candidate into an insertion-ordered set. -/
def parseLanguageStr (value : List Char) : List (Option (List Char)) :=
  let w1 := removeLongParens value
  let scan := dialectScan w1
  let extractedDialects := scan.1.foldl (fun acc m => acc ++ extractDialectTokens m) []
  let w2 := if scan.1.isEmpty then w1 else scan.2
  let w3 := removeParens w2
  let parts := splitSeps w3
  (parts ++ extractedDialects).foldl langAddToken []

/-- parseLanguageValue from server.js.  Null and non-string values, and
the empty string, which is falsy, give the empty result. -/
def parseLanguageValue : JsVal → List (Option (List Char))
  | JsVal.vstr s => if s.isEmpty then [] else parseLanguageStr s
  | _ => []

def isDescriptionWords : List (List Char) :=
  [chars "devotion", chars "rooted", chars "lineage", chars "philosophical",
   chars "synthesis", chars "movement", chars "tradition", chars "school",
   chars "common", chars "spiritual"]

/-- The per-alternate body inside the parenthetical branch of the
tradition parser. -/
def tradAddAlt (acc : List (Option (List Char))) (alt : List Char) :
    List (Option (List Char)) :=
  let cleanAlt := jsTrim alt
  if ¬ cleanAlt.isEmpty ∧ 3 < cleanAlt.length ∧
      (isSubstr (chars "canon") (cleanAlt.map jsToLower) ||
       isSubstr (chars "nayanars") (cleanAlt.map jsToLower)) = false then
    setAdd acc (normalizeTraditionName cleanAlt)
  else acc

/-- The per-sub-part body of the tradition parser. -/
def tradAddSub (results : List (Option (List Char))) (subPart : List Char) :
    List (Option (List Char)) :=
  match matchMainParen subPart with
  | some (pre, parenRaw) =>
    let mainPart := jsTrim pre
    let parenContent := jsTrim parenRaw
    let r1 := if ¬ mainPart.isEmpty ∧ 2 < mainPart.length then
        setAdd results (normalizeTraditionName mainPart) else results
    let wordCount := (splitWsRuns parenContent).length
    let isDescription := decide (5 < wordCount) ||
      isDescriptionWords.any (fun w => isSubstr w (parenContent.map jsToLower))
    if isDescription = false ∧ wordCount ≤ 4 then
      (splitSlashWs parenContent).foldl tradAddAlt r1
    else r1
  | none =>
    let cleaned := stripTrailingSuffixWord (jsTrim (removeParens subPart))
    if ¬ cleaned.isEmpty ∧ 2 < cleaned.length then
      setAdd results (normalizeTraditionName cleaned)
    else results

/-- The per-dash-part body of the tradition parser: split the part on
slashes and process every sub-part. -/
def tradAddPart (acc : List (Option (List Char))) (part : List Char) :
    List (Option (List Char)) :=
  (splitSlashWs part).foldl tradAddSub acc

/-- parseTraditionValue from server.js on a non-empty string: split on
dashes, split each part on slashes, then process every sub-part. -/
def parseTraditionStr (value : List Char) : List (Option (List Char)) :=
  (splitDashes value).foldl tradAddPart []

/-- parseTraditionValue from server.js.  Null and non-string values, and
the empty string, give the empty result. -/
def parseTraditionValue : JsVal → List (Option (List Char))
  | JsVal.vstr s => if s.isEmpty then [] else parseTraditionStr s
  | _ => []

/-- The two kinds of compound field. -/
inductive FieldKind where
  | language : FieldKind
  | tradition : FieldKind
deriving DecidableEq

/-- The kind-indexed compound-value parser of the specification. -/
def parseCompound : FieldKind → JsVal → List (Option (List Char))
  | FieldKind.language, v => parseLanguageValue v
  | FieldKind.tradition, v => parseTraditionValue v

/-- The regex metacharacters escaped by the filter builder of server.js. -/
def isMetaChar (c : Char) : Bool :=
  c == '.' || c == '*' || c == '+' || c == '?' || c == '^' || c == '$' ||
  c == '{' || c == '}' || c == '(' || c == ')' || c == '|' || c == '[' ||
  c == ']' || c == '\\'

/-- The escaping replace of server.js: a backslash is inserted before
every regex metacharacter. -/
def escapeRegex : List Char → List Char
  | [] => []
  | c :: r => (if isMetaChar c then ['\\', c] else [c]) ++ escapeRegex r

/-- Interpretation of an escaped pattern as the literal string it
denotes: a backslash makes the following character literal. -/
def unescapeLit : List Char → List Char
  | '\\' :: c :: r => c :: unescapeLit r
  | c :: r => c :: unescapeLit r
  | [] => []

/-- The variation list built by the tradition filter of the traditions
endpoint: the trimmed input itself followed by the known spelling
variants of the recognized canonical names. -/
def traditionVariations (tradSearch : List Char) : List (List Char) :=
  let lowerTrad := tradSearch.map jsToLower
  tradSearch ::
    (if lowerTrad = chars "shaiva" ∨ lowerTrad = chars "saiva" then
      [chars "Śaiva", chars "Saiva", chars "Shaiva", chars "Shaivism"]
    else if lowerTrad = chars "vaishnava" ∨ lowerTrad = chars "vaisnava" then
      [chars "Vaiṣṇava", chars "Vaisnava", chars "Vaishnava", chars "Vaishnavism"]
    else if lowerTrad = chars "lingayat" then
      [chars "Liṅgāyat", chars "Lingāyat", chars "Virashaiva", chars "Vīraśaiva"]
    else if lowerTrad = chars "varkari" then
      [chars "Vārkari", chars "Varkari Sampradaya"]
    else if lowerTrad = chars "gaudiya" then
      [chars "Gauḍīya", chars "Gaudīya"]
    else if lowerTrad = chars "alvars" then
      [chars "Āḻvārs", chars "Alwars"]
    else if lowerTrad = chars "nayanars" then
      [chars "Nāyanārs", chars "Nayanmars"]
    else [])

/-- The tradition predicate of the Filter Query Builder: the variations
are escaped and joined into a case-insensitive alternation; an
alternation of escaped literals matches a field exactly when some
alternative, read back as a literal, is a case-insensitive substring of
the field. -/
def traditionFilterMatches (tradition fieldValue : List Char) : Bool :=
  let tradSearch := jsTrim tradition
  let variations := traditionVariations tradSearch
  let escaped := variations.map escapeRegex
  escaped.any (fun p => ciContainsStr fieldValue (unescapeLit p))

/-- JavaScript parseInt with radix ten: skip leading whitespace, read an
optional sign and then a non-empty digit prefix, NaN otherwise. -/
def jsParseInt (s : List Char) : Option Int :=
  let t := s.dropWhile isWsChar
  let signAndRest : Int × List Char :=
    match t with
    | '-' :: r => (-1, r)
    | '+' :: r => (1, r)
    | _ => (1, t)
  let digits := signAndRest.2.takeWhile (fun c => c.isDigit)
  if digits.isEmpty then none
  else some (signAndRest.1 * (Int.ofNat (digits.foldl (fun a c => a * 10 + (c.toNat - 48)) 0)))

/-- The MongoDB toInt conversion on a string operand: the whole string
must be an optionally signed decimal integer, otherwise the aggregation
errors, modelled as none. -/
def mongoToInt (s : List Char) : Option Int :=
  match s with
  | '-' :: r =>
    if ¬ r.isEmpty ∧ r.all (fun c => c.isDigit) then
      some (-(Int.ofNat (r.foldl (fun a c => a * 10 + (c.toNat - 48)) 0)))
    else none
  | _ =>
    if ¬ s.isEmpty ∧ s.all (fun c => c.isDigit) then
      some (Int.ofNat (s.foldl (fun a c => a * 10 + (c.toNat - 48)) 0))
    else none

/-- One numeric start-year condition of the traditions endpoint. -/
inductive YearCond where
  | geMin : Int → YearCond
  | leMax : Int → YearCond
deriving DecidableEq

/-- The year-range conditions built by the traditions endpoint: a bound
contributes a condition only when the query value is truthy and parses
as an integer. -/
def buildYearConditions (startYearMin startYearMax : Option (List Char)) : List YearCond :=
  (match startYearMin with
   | some s =>
     if s.isEmpty then []
     else match jsParseInt s with
       | some m => [YearCond.geMin m]
       | none => []
   | none => []) ++
  (match startYearMax with
   | some s =>
     if s.isEmpty then []
     else match jsParseInt s with
       | some m => [YearCond.leMax m]
       | none => []
   | none => [])

/-- Evaluation of one condition on a record: the stored start year, a
string, is defaulted by ifNull to the string zero for the lower bound
and to the string nine-nine-nine-nine for the upper bound, then
converted with toInt and compared. -/
def evalYearCond (startYear : Option (List Char)) : YearCond → Option Bool
  | YearCond.geMin m => (mongoToInt (startYear.getD (chars "0"))).map (fun v => decide (m ≤ v))
  | YearCond.leMax m => (mongoToInt (startYear.getD (chars "9999"))).map (fun v => decide (v ≤ m))

/-- Whether a record with the given stored start year satisfies the
year-range part of the filter (the and of all built conditions); none
models an aggregation error from toInt. -/
def yearRangeKeep (startYearMin startYearMax startYear : Option (List Char)) : Option Bool :=
  (buildYearConditions startYearMin startYearMax).foldl
    (fun acc c =>
      match acc, evalYearCond startYear c with
      | some a, some b => some (a && b)
      | _, _ => none)
    (some true)

/-- A named location of a stored record.  Absent and null coordinates
are both none; present coordinates are a list of numbers whose length
the projector checks. -/
structure Place where
  name : List Char
  coords : Option (List Int)
  region : Option (List Char)
deriving DecidableEq

/-- One entry of the places map: null, a single Place, or a list of
Places. -/
inductive PlaceEntry where
  | pnull : PlaceEntry
  | single : Place → PlaceEntry
  | many : List Place → PlaceEntry
deriving DecidableEq

/-- The places field of a stored document: absent or null, present but
not an object, or an object given by its entries in key order. -/
inductive PlacesField where
  | missing : PlacesField
  | nonObject : PlacesField
  | obj : List (List Char × PlaceEntry) → PlacesField
deriving DecidableEq

/-- A stored tradition document as convertToMapMarkers reads it. -/
structure Doc where
  docId : List Char
  saint : List Char
  tradition : List Char
  traditionType : List Char
  gender : List Char
  period : List Char
  startYear : Option (List Char)
  endYear : Option (List Char)
  language : List Char
  philosophy : List Char
  texts : Option (List (List Char))
  presidingDeity : Option (List Char)
  updatedAt : Option (List Char)
  places : PlacesField
deriving DecidableEq

/-- A map marker, the flat projection of one document and place. -/
structure Marker where
  id : List Char
  name : List Char
  coords : List Int
  type : List Char
  saint : List Char
  tradition : List Char
  traditionType : List Char
  gender : List Char
  period : List Char
  startYear : Option (List Char)
  endYear : Option (List Char)
  language : List Char
  philosophy : List Char
  texts : List (List Char)
  presidingDeity : Option (List Char)
  popup : List Char
  updatedAt : Option (List Char)
  fullData : Doc
deriving DecidableEq

/-- The JavaScript or-null coercion used for presidingDeity and
updatedAt: a falsy value (absent or the empty string) becomes null. -/
def jsOrNull (o : Option (List Char)) : Option (List Char) :=
  match o with
  | some s => if s.isEmpty then none else some s
  | none => none

/-- createMarker from server.js.  The marker id takes the random suffix
for this marker from the explicit randomness stream at index n, the
number of markers already created during this call; a place without a
two-element coordinate list produces nothing. -/
def createMarker (doc : Doc) (rand : Nat → List Char) (n : Nat) (place : Place)
    (ty : List Char) : Option Marker :=
  match place.coords with
  | none => none
  | some cs =>
    if cs.length ≠ 2 then none
    else some {
      id := doc.docId ++ ['_'] ++ ty ++ ['_'] ++ rand n,
      name := place.name,
      coords := cs,
      type := ty,
      saint := doc.saint,
      tradition := doc.tradition,
      traditionType := doc.traditionType,
      gender := doc.gender,
      period := doc.period,
      startYear := doc.startYear,
      endYear := doc.endYear,
      language := doc.language,
      philosophy := doc.philosophy,
      texts := doc.texts.getD [],
      presidingDeity := jsOrNull doc.presidingDeity,
      popup := place.name ++ chars " — " ++ ty ++ chars " of " ++ doc.saint,
      updatedAt := jsOrNull doc.updatedAt,
      fullData := doc }

/-- Does a place carry a coordinate list of length exactly two? -/
def validPlace (p : Place) : Bool :=
  match p.coords with
  | some cs => cs.length == 2
  | none => false

/-- Markers of one list-valued places entry, threading the count of
markers created so far. -/
def goPlaces (doc : Doc) (rand : Nat → List Char) (ty : List Char) :
    List Place → Nat → List Marker × Nat
  | [], n => ([], n)
  | p :: ps, n =>
    match createMarker doc rand n p ty with
    | some m =>
      let r := goPlaces doc rand ty ps (n + 1)
      (m :: r.1, r.2)
    | none => goPlaces doc rand ty ps n

/-- Markers of the places entries in order, threading the count of
markers created so far. -/
def goEntries (doc : Doc) (rand : Nat → List Char) :
    List (List Char × PlaceEntry) → Nat → List Marker × Nat
  | [], n => ([], n)
  | (ty, e) :: rest, n =>
    match e with
    | PlaceEntry.pnull => goEntries doc rand rest n
    | PlaceEntry.single p =>
      match createMarker doc rand n p ty with
      | some m =>
        let r := goEntries doc rand rest (n + 1)
        (m :: r.1, r.2)
      | none => goEntries doc rand rest n
    | PlaceEntry.many ps =>
      let r1 := goPlaces doc rand ty ps n
      let r2 := goEntries doc rand rest r1.2
      (r1.1 ++ r2.1, r2.2)

/-- convertToMapMarkers from server.js.  The rand argument makes the
calls of Math.random an explicit stream of suffixes, indexed by the
number of markers created so far within this call. -/
def convertToMapMarkers (doc : Doc) (rand : Nat → List Char) : List Marker :=
  match doc.places with
  | PlacesField.obj entries => (goEntries doc rand entries 0).1
  | _ => []

/-- The number of markers one places entry yields. -/
def entryMarkerCount : PlaceEntry → Nat
  | PlaceEntry.pnull => 0
  | PlaceEntry.single p => if validPlace p then 1 else 0
  | PlaceEntry.many ps => ps.countP validPlace

/-- A marker with its synthetic id blanked, for comparing runs modulo
the random suffix. -/
def eraseId (m : Marker) : Marker := { m with id := [] }

/-! ### Shared concrete records for the examples and witnesses -/

def exampleEntries : List (List Char × PlaceEntry) :=
  [(chars "birth", PlaceEntry.single ⟨chars "X", some [1, 2], none⟩),
   (chars "temple", PlaceEntry.many [⟨chars "Y", none, none⟩])]

def exampleDoc : Doc :=
  ⟨chars "id1", chars "Kabir", chars "Sant Mat", chars "nirguna", chars "male",
   chars "15th century", some (chars "1440"), some (chars "1518"), chars "Hindi",
   chars "nirguna bhakti", none, none, none, PlacesField.obj exampleEntries⟩

def exampleRand : Nat → List Char := fun _ => chars "r4nd0m"

def docMissingPlaces : Doc := { exampleDoc with places := PlacesField.missing }

def docNonObjectPlaces : Doc := { exampleDoc with places := PlacesField.nonObject }

/-- The canonical values of the language-normalization table. -/
def canonicalLanguageTokens : List (List Char) :=
  [chars "Braj Bhasha", chars "Hindi", chars "Sanskrit", chars "Bengali",
   chars "Punjabi", chars "Tamil", chars "Telugu", chars "Kannada",
   chars "Gujarati", chars "Awadhi", chars "Maithili", chars "Persian",
   chars "Odia", chars "Marwari", chars "Sant Bhasha", chars "Kashmiri"]

/-- The canonical values of the tradition-normalization table. -/
def canonicalTraditionTokens : List (List Char) :=
  [chars "Vaishnava", chars "Shaiva", chars "Siddhanta", chars "Lingayat",
   chars "Varkari", chars "Gaudiya", chars "Virashaiva", chars "Alvars",
   chars "Nayanars"]

/-! ### Claim theorems -/

/-- C4: parseCompound of kind language on the string
Hindi (Braj, Avadhi dialects) returns exactly the tokens Hindi,
Braj Bhasha and Awadhi: the dialect parenthetical is extracted into the
candidate tokens Braj and Avadhi before the remaining text is split on
separators, and every surviving token is normalized, Braj to Braj Bhasha
and Avadhi to Awadhi. -/
theorem C4_dialect_extraction :
    parseCompound FieldKind.language (JsVal.vstr (chars "Hindi (Braj, Avadhi dialects)")) =
      [some (chars "Hindi"), some (chars "Braj Bhasha"), some (chars "Awadhi")] := by
  decide

/-- C7 counterexample: parseCompound is not idempotent on its own output.
On the input string open-paren foo and bar dialects close-paren the
language parser emits the single token Foo And Bar, but re-feeding that
token splits it on the word and, giving Foo and Bar instead of the token
itself. -/
theorem C7_counterexample :
    parseCompound FieldKind.language (JsVal.vstr (chars "(foo and bar dialects)")) =
      [some (chars "Foo And Bar")] ∧
    parseCompound FieldKind.language (JsVal.vstr (chars "Foo And Bar")) ≠
      [some (chars "Foo And Bar")] := by
  decide

/-- C7 (amended): idempotence holds for the canonical vocabulary rather
than for every input: every canonical token of the per-kind
normalization tables is a fixed point of parseCompound, while re-feeding
an output token that contains the word and, as can arise from dialect
extraction, splits it further. -/
theorem C7_canonical_fixed_points :
    (canonicalLanguageTokens.all
      (fun t => parseCompound FieldKind.language (JsVal.vstr t) == [some t]) = true) ∧
    (canonicalTraditionTokens.all
      (fun t => parseCompound FieldKind.tradition (JsVal.vstr t) == [some t]) = true) := by
  decide

/-- C2 counterexample: with the upper bound one thousand and a record
without a startYear field, the year filter substitutes the sentinel
string nine-nine-nine-nine, and nine thousand nine hundred ninety-nine
is not at most one thousand, so the record is excluded, not included as
the claim states. -/
theorem C2_counterexample :
    yearRangeKeep none (some (chars "1000")) none = some false ∧
    yearRangeKeep none (some (chars "1000")) none ≠ some true := by
  decide

/-- C2 (amended): the missing-field fallbacks are zero for the lower
bound and the sentinel nine-nine-nine-nine for the upper bound, so a
record without a startYear field is excluded by the filter with minimum
one thousand, and is also excluded by the filter with maximum one
thousand; in general, under a maximum bound alone that parses to the
integer m, a record without a startYear field is kept exactly when
nine thousand nine hundred ninety-nine is at most m. -/
theorem C2_year_fallback :
    yearRangeKeep (some (chars "1000")) none none = some false ∧
    yearRangeKeep none (some (chars "1000")) none = some false ∧
    (∀ (s : List Char) (m : Int), s ≠ [] → jsParseInt s = some m →
      yearRangeKeep none (some s) none = some (decide ((9999 : Int) ≤ m))) := by
  refine ⟨by decide, by decide, ?_⟩
  intro s m hne hm
  have hempty : s.isEmpty = false := by
    cases s with
    | nil => exact absurd rfl hne
    | cons c cs => rfl
  have h9 : mongoToInt (chars "9999") = some 9999 := by decide
  simp only [yearRangeKeep, buildYearConditions, hempty, Bool.false_eq_true, if_false, hm,
    List.nil_append, List.foldl_cons, List.foldl_nil, evalYearCond, Option.getD_none, h9,
    Option.map_some', Bool.true_and]

theorem C2_witness :
    ((chars "10000" ≠ []) ∧ jsParseInt (chars "10000") = some 10000) ∧
    yearRangeKeep none (some (chars "10000")) none =
      some (decide ((9999 : Int) ≤ (10000 : Int))) :=
  ⟨⟨by decide, by decide⟩,
   C2_year_fallback.2.2 (chars "10000") 10000 (by decide) (by decide)⟩

/-- C5 counterexample: the tradition normalizer does not title-case its
fallback: on the token tamil bhakti, which is not in the tradition
table, it returns the token unchanged, not Tamil Bhakti as the claim
states for both kinds. -/
theorem C5_counterexample :
    normalizeTraditionName (chars "tamil bhakti") = some (chars "tamil bhakti") ∧
    titleCaseJs (chars "tamil bhakti") = chars "Tamil Bhakti" ∧
    normalizeTraditionName (chars "tamil bhakti") ≠ some (chars "Tamil Bhakti") := by
  decide

/-- C5 (amended): only the language normalizer title-cases a token whose
lower-cased cleaned form is not in its table; the tradition normalizer
returns the trimmed, whitespace-collapsed token unchanged. -/
theorem C5_fallback_behavior :
    (∀ name : List Char, ¬ name.isEmpty = true →
      lookupTable langNormTable ((cleanLanguageToken name).map jsToLower) = none →
      2 ≤ (cleanLanguageToken name).length →
      normalizeLanguageName name = some (titleCaseJs (cleanLanguageToken name))) ∧
    (∀ name : List Char, ¬ name.isEmpty = true →
      lookupTable tradNormTable ((cleanTraditionToken name).map jsToLower) = none →
      2 ≤ (cleanTraditionToken name).length →
      normalizeTraditionName name = some (cleanTraditionToken name)) := by
  constructor
  · intro name h1 h2 h3
    have h4 : ¬ (cleanLanguageToken name).length < 2 := by omega
    simp only [normalizeLanguageName, h1, if_false, h4, h2]
    simp
  · intro name h1 h2 h3
    have h4 : ¬ (cleanTraditionToken name).length < 2 := by omega
    simp only [normalizeTraditionName, h1, if_false, h4, h2]
    simp

theorem C5_witness :
    normalizeLanguageName (chars "sufi kavya") =
      some (titleCaseJs (cleanLanguageToken (chars "sufi kavya"))) ∧
    normalizeTraditionName (chars "sufi kavya") =
      some (cleanTraditionToken (chars "sufi kavya")) :=
  ⟨C5_fallback_behavior.1 _ (by decide) (by decide) (by decide),
   C5_fallback_behavior.2 _ (by decide) (by decide) (by decide)⟩

/-- C6 counterexample: on the empty string both normalizers take the
falsy early return and give back the empty string itself, which is not
null, contradicting the claim that the empty string returns null. -/
theorem C6_counterexample :
    normalizeLanguageName (chars "") = some (chars "") ∧
    normalizeTraditionName (chars "") = some (chars "") ∧
    normalizeLanguageName (chars "") ≠ none := by
  decide

/-- C6 (amended): the empty string is returned unchanged by the falsy
guard (a falsy but non-null result), while any non-empty token whose
cleaned form has fewer than two characters, such as the single letter a,
returns null, for both kinds. -/
theorem C6_length_floor :
    (normalizeLanguageName [] = some [] ∧ normalizeTraditionName [] = some []) ∧
    (normalizeLanguageName (chars "a") = none ∧ normalizeTraditionName (chars "a") = none) ∧
    (∀ s : List Char, ¬ s.isEmpty = true → (cleanLanguageToken s).length < 2 →
      normalizeLanguageName s = none) ∧
    (∀ s : List Char, ¬ s.isEmpty = true → (cleanTraditionToken s).length < 2 →
      normalizeTraditionName s = none) := by
  refine ⟨by decide, by decide, ?_, ?_⟩
  · intro s h1 h2
    simp only [normalizeLanguageName, h1, if_false, h2, if_true]
    simp
  · intro s h1 h2
    simp only [normalizeTraditionName, h1, if_false, h2, if_true]
    simp

theorem C6_witness :
    normalizeLanguageName (chars "a") = none ∧
    normalizeTraditionName (chars "a") = none :=
  ⟨C6_length_floor.2.2.1 (chars "a") (by decide) (by decide),
   C6_length_floor.2.2.2 (chars "a") (by decide) (by decide)⟩

/-- C9 counterexample: the projector is not pure across runs: with two
different outcomes of the randomness stream the same record yields
marker lists that differ, because each marker id embeds a fresh random
suffix. -/
theorem C9_counterexample :
    convertToMapMarkers exampleDoc (fun _ => chars "aaaaaaa") ≠
    convertToMapMarkers exampleDoc (fun _ => chars "bbbbbbb") := by
  decide

/-- A record with a null entry in its places map, for the null-skipping
part of the projector claims. -/
def docNullEntry : Doc :=
  { exampleDoc with places :=
      PlacesField.obj ((chars "samadhi", PlaceEntry.pnull) :: exampleEntries) }

theorem goPlaces_len (doc : Doc) (rand : Nat → List Char) (ty : List Char) :
    ∀ (ps : List Place) (n : Nat),
      ((goPlaces doc rand ty ps n).1).length = ps.countP validPlace := by
  intro ps
  induction ps with
  | nil => intro n; rfl
  | cons p ps ih =>
    intro n
    cases hc : p.coords with
    | none =>
      have hv : validPlace p = false := by simp [validPlace, hc]
      simp only [goPlaces, createMarker, hc, List.countP_cons, hv, Bool.false_eq_true,
        if_false, Nat.add_zero]
      exact ih n
    | some cs =>
      by_cases h2 : cs.length ≠ 2
      · have hv : validPlace p = false := by simp [validPlace, hc]; omega
        simp only [goPlaces, createMarker, hc, if_pos h2, List.countP_cons, hv,
          Bool.false_eq_true, if_false, Nat.add_zero]
        exact ih n
      · have hv : validPlace p = true := by simp [validPlace, hc]; omega
        simp only [goPlaces, createMarker, hc, if_neg h2, List.countP_cons, hv, if_true,
          List.length_cons]
        rw [ih (n + 1)]

theorem goEntries_len (doc : Doc) (rand : Nat → List Char) :
    ∀ (entries : List (List Char × PlaceEntry)) (n : Nat),
      ((goEntries doc rand entries n).1).length =
        (entries.map (fun e => entryMarkerCount e.2)).sum := by
  intro entries
  induction entries with
  | nil => intro n; rfl
  | cons e rest ih =>
    intro n
    obtain ⟨ty, pe⟩ := e
    cases pe with
    | pnull =>
      have h0 : entryMarkerCount PlaceEntry.pnull = 0 := rfl
      simp only [goEntries, List.map_cons, List.sum_cons, h0, Nat.zero_add]
      exact ih n
    | single p =>
      cases hc : p.coords with
      | none =>
        have h0 : entryMarkerCount (PlaceEntry.single p) = 0 := by
          simp [entryMarkerCount, validPlace, hc]
        simp only [goEntries, createMarker, hc, List.map_cons, List.sum_cons, h0,
          Nat.zero_add]
        exact ih n
      | some cs =>
        by_cases h2 : cs.length ≠ 2
        · have h0 : entryMarkerCount (PlaceEntry.single p) = 0 := by
            simp [entryMarkerCount, validPlace, hc]; omega
          simp only [goEntries, createMarker, hc, if_pos h2, List.map_cons, List.sum_cons,
            h0, Nat.zero_add]
          exact ih n
        · have h0 : entryMarkerCount (PlaceEntry.single p) = 1 := by
            simp [entryMarkerCount, validPlace, hc]; omega
          simp only [goEntries, createMarker, hc, if_neg h2, List.map_cons, List.sum_cons,
            h0, List.length_cons]
          rw [ih (n + 1)]
          omega
    | many ps =>
      have h0 : entryMarkerCount (PlaceEntry.many ps) = ps.countP validPlace := rfl
      simp only [goEntries, List.map_cons, List.sum_cons, h0, List.length_append]
      rw [goPlaces_len doc rand ty ps n, ih]

/-- C3: on a record whose places field is an object, the projector emits
exactly one marker per category-and-place pair whose place has a
coordinate list of length exactly two, and emits nothing for a place
whose coordinates are absent, null, or of another length; on the example
record with a located birth place and an unlocated temple place, exactly
one marker is produced, for the birth category. -/
theorem C3_marker_per_valid_place :
    (∀ (doc : Doc) (rand : Nat → List Char) (entries : List (List Char × PlaceEntry)),
      doc.places = PlacesField.obj entries →
      (convertToMapMarkers doc rand).length =
        (entries.map (fun e => entryMarkerCount e.2)).sum) ∧
    (convertToMapMarkers exampleDoc exampleRand).map (fun m => (m.type, m.name)) =
      [(chars "birth", chars "X")] := by
  constructor
  · intro doc rand entries h
    unfold convertToMapMarkers
    rw [h]
    exact goEntries_len doc rand entries 0
  · decide

theorem C3_witness :
    exampleDoc.places = PlacesField.obj exampleEntries ∧
    (convertToMapMarkers exampleDoc exampleRand).length =
      (exampleEntries.map (fun e => entryMarkerCount e.2)).sum :=
  ⟨rfl, C3_marker_per_valid_place.1 exampleDoc exampleRand exampleEntries rfl⟩

theorem goPlaces_eraseId (doc : Doc) (ty : List Char) (r1 r2 : Nat → List Char) :
    ∀ (ps : List Place) (n1 n2 : Nat),
      ((goPlaces doc r1 ty ps n1).1).map eraseId =
        ((goPlaces doc r2 ty ps n2).1).map eraseId := by
  intro ps
  induction ps with
  | nil => intro n1 n2; rfl
  | cons p ps ih =>
    intro n1 n2
    cases hc : p.coords with
    | none =>
      simp only [goPlaces, createMarker, hc]
      exact ih n1 n2
    | some cs =>
      by_cases h2 : cs.length ≠ 2
      · simp only [goPlaces, createMarker, hc, if_pos h2]
        exact ih n1 n2
      · simp only [goPlaces, createMarker, hc, if_neg h2, List.map_cons]
        refine congrArg₂ _ ?_ (ih (n1 + 1) (n2 + 1))
        rfl

theorem goEntries_eraseId (doc : Doc) (r1 r2 : Nat → List Char) :
    ∀ (entries : List (List Char × PlaceEntry)) (n1 n2 : Nat),
      ((goEntries doc r1 entries n1).1).map eraseId =
        ((goEntries doc r2 entries n2).1).map eraseId := by
  intro entries
  induction entries with
  | nil => intro n1 n2; rfl
  | cons e rest ih =>
    intro n1 n2
    obtain ⟨ty, pe⟩ := e
    cases pe with
    | pnull =>
      simp only [goEntries]
      exact ih n1 n2
    | single p =>
      cases hc : p.coords with
      | none =>
        simp only [goEntries, createMarker, hc]
        exact ih n1 n2
      | some cs =>
        by_cases h2 : cs.length ≠ 2
        · simp only [goEntries, createMarker, hc, if_pos h2]
          exact ih n1 n2
        · simp only [goEntries, createMarker, hc, if_neg h2, List.map_cons]
          refine congrArg₂ _ ?_ (ih (n1 + 1) (n2 + 1))
          rfl
    | many ps =>
      simp only [goEntries, List.map_append]
      refine congrArg₂ _ (goPlaces_eraseId doc ty r1 r2 ps n1 n2) (ih _ _)

/-- C9 (amended): the projector is deterministic in everything except
the random suffix inside the synthetic marker id: across any two
outcomes of the randomness stream, the marker lists of the same record
agree once the id field is blanked; the claim that two runs agree on the
id itself fails because the id embeds a value of Math.random. -/
theorem C9_deterministic_modulo_id :
    ∀ (doc : Doc) (r1 r2 : Nat → List Char),
      (convertToMapMarkers doc r1).map eraseId =
        (convertToMapMarkers doc r2).map eraseId := by
  intro doc r1 r2
  unfold convertToMapMarkers
  cases h : doc.places with
  | missing => rfl
  | nonObject => rfl
  | obj entries => exact goEntries_eraseId doc r1 r2 entries 0 0

theorem goEntries_filter_pnull (doc : Doc) (rand : Nat → List Char) :
    ∀ (entries : List (List Char × PlaceEntry)) (n : Nat),
      goEntries doc rand entries n =
        goEntries doc rand (entries.filter (fun e =>
          match e.2 with | PlaceEntry.pnull => false | _ => true)) n := by
  intro entries
  induction entries with
  | nil => intro n; rfl
  | cons e rest ih =>
    intro n
    obtain ⟨ty, pe⟩ := e
    cases pe with
    | pnull =>
      simp only [goEntries, List.filter_cons]
      exact ih n
    | single p =>
      simp only [goEntries, List.filter_cons]
      cases hcm : createMarker doc rand n p ty with
      | some m => simp only [goEntries, hcm, ih (n + 1)]
      | none => simp only [goEntries, hcm, ih n]
    | many ps =>
      simp only [goEntries, List.filter_cons]
      rw [ih (goPlaces doc rand ty ps n).2]

/-- C10: when the places field of a document is absent, null, or not an
object, the projector returns the empty marker list rather than an
error, and a null entry under any place category is skipped without
effect: the markers equal those of the entries with the null entries
filtered away. -/
theorem C10_places_guard :
    ∀ (doc : Doc) (rand : Nat → List Char),
      (doc.places = PlacesField.missing → convertToMapMarkers doc rand = []) ∧
      (doc.places = PlacesField.nonObject → convertToMapMarkers doc rand = []) ∧
      (∀ entries, doc.places = PlacesField.obj entries →
        convertToMapMarkers doc rand =
          (goEntries doc rand (entries.filter (fun e =>
            match e.2 with | PlaceEntry.pnull => false | _ => true)) 0).1) := by
  intro doc rand
  refine ⟨?_, ?_, ?_⟩
  · intro h; unfold convertToMapMarkers; rw [h]
  · intro h; unfold convertToMapMarkers; rw [h]
  · intro entries h
    unfold convertToMapMarkers
    rw [h]
    exact congrArg Prod.fst (goEntries_filter_pnull doc rand entries 0)

theorem C10_witness :
    convertToMapMarkers docMissingPlaces exampleRand = [] ∧
    convertToMapMarkers docNonObjectPlaces exampleRand = [] ∧
    convertToMapMarkers docNullEntry exampleRand =
      (goEntries docNullEntry exampleRand
        ((((chars "samadhi", PlaceEntry.pnull) :: exampleEntries)).filter (fun e =>
          match e.2 with | PlaceEntry.pnull => false | _ => true)) 0).1 :=
  ⟨(C10_places_guard docMissingPlaces exampleRand).1 rfl,
   (C10_places_guard docNonObjectPlaces exampleRand).2.1 rfl,
   (C10_places_guard docNullEntry exampleRand).2.2
     ((chars "samadhi", PlaceEntry.pnull) :: exampleEntries) rfl⟩

theorem listStartsWith_map (f : Char → Char) :
    ∀ (p t : List Char), listStartsWith p t = true → listStartsWith (p.map f) (t.map f) = true := by
  intro p
  induction p with
  | nil => intro t _; rfl
  | cons a ps ih =>
    intro t h
    cases t with
    | nil => exact absurd h (by simp [listStartsWith])
    | cons b ts =>
      simp only [listStartsWith, Bool.and_eq_true, beq_iff_eq] at h
      obtain ⟨h1, h2⟩ := h
      simp only [List.map_cons, listStartsWith, Bool.and_eq_true, beq_iff_eq]
      exact ⟨by rw [h1], ih ts h2⟩

theorem isSubstr_map (f : Char → Char) :
    ∀ (t p : List Char), isSubstr p t = true → isSubstr (p.map f) (t.map f) = true := by
  intro t
  induction t with
  | nil =>
    intro p h
    simp only [isSubstr] at h
    rw [List.isEmpty_iff] at h
    subst h
    rfl
  | cons b ts ih =>
    intro p h
    simp only [isSubstr, Bool.or_eq_true] at h
    rcases h with h | h
    · simp only [List.map_cons, isSubstr, Bool.or_eq_true]
      left
      have hm := listStartsWith_map f p (b :: ts) h
      simpa using hm
    · simp only [List.map_cons, isSubstr, Bool.or_eq_true]
      right
      exact ih p h

theorem unescape_escape : ∀ s : List Char, unescapeLit (escapeRegex s) = s := by
  intro s
  induction s with
  | nil => rfl
  | cons c r ih =>
    by_cases hm : isMetaChar c
    · have he : escapeRegex (c :: r) = '\\' :: c :: escapeRegex r := by
        simp [escapeRegex, hm]
      rw [he]
      simp [unescapeLit, ih]
    · have he : escapeRegex (c :: r) = c :: escapeRegex r := by
        simp [escapeRegex, hm]
      rw [he]
      have hc : ¬ c = '\\' := by
        intro hcc
        subst hcc
        simp [isMetaChar] at hm
      simp [unescapeLit, hc, ih]

theorem meta_toLower_fixed (c : Char) (h : isMetaChar c = true) : jsToLower c = c := by
  simp only [isMetaChar, Bool.or_eq_true, beq_iff_eq] at h
  rcases h with (((((((((((((h | h) | h) | h) | h) | h) | h) | h) | h) | h) | h) | h) | h) | h) <;>
    subst h <;> decide

theorem lingayat_not_meta (c : Char) (h : jsToLower c ∈ chars "lingayat") :
    isMetaChar c = false := by
  by_cases hm : isMetaChar c
  · exfalso
    rw [meta_toLower_fixed c hm] at h
    have hl : chars "lingayat" = ['l', 'i', 'n', 'g', 'a', 'y', 'a', 't'] := rfl
    rw [hl] at h
    fin_cases h <;> exact absurd hm (by decide)
  · cases hb : isMetaChar c
    · rfl
    · exact absurd hb hm

theorem escape_self (s : List Char) (h : ∀ c ∈ s, isMetaChar c = false) :
    escapeRegex s = s := by
  induction s with
  | nil => rfl
  | cons c r ih =>
    have hc := h c (by simp)
    have ih2 := ih (fun x hx => h x (List.mem_cons_of_mem c hx))
    simp only [escapeRegex, hc, Bool.false_eq_true, if_false, List.singleton_append,
      ih2]

/-- C1: on a filter input whose trimmed, lower-cased form is lingayat, the
tradition predicate of the Filter Query Builder matches (case-insensitive
substring semantics against the alternation of the input plus the known
variants) every record whose tradition field contains Vīraśaiva,
Liṅgāyat, or Lingayat, matches no record whose tradition field is
Vaishnava, and escaping the regex metacharacters leaves every variant of
this alternation unchanged. -/
theorem C1_lingayat_variant_filter :
    ∀ tradition : List Char,
      (jsTrim tradition).map jsToLower = chars "lingayat" →
      (∀ fieldValue : List Char,
        (isSubstr (chars "Vīraśaiva") fieldValue || isSubstr (chars "Liṅgāyat") fieldValue ||
          isSubstr (chars "Lingayat") fieldValue) = true →
        traditionFilterMatches tradition fieldValue = true) ∧
      traditionFilterMatches tradition (chars "Vaishnava") = false ∧
      (traditionVariations (jsTrim tradition)).map escapeRegex =
        traditionVariations (jsTrim tradition) := by
  intro tradition h
  have hvar : traditionVariations (jsTrim tradition) =
      jsTrim tradition :: [chars "Liṅgāyat", chars "Lingāyat", chars "Virashaiva",
        chars "Vīraśaiva"] := by
    unfold traditionVariations
    rw [h]
    rfl
  have hescSelf : escapeRegex (jsTrim tradition) = jsTrim tradition := by
    apply escape_self
    intro c hc
    apply lingayat_not_meta
    rw [← h]
    exact List.mem_map_of_mem jsToLower hc
  have hesc : (traditionVariations (jsTrim tradition)).map escapeRegex =
      traditionVariations (jsTrim tradition) := by
    rw [hvar]
    simp only [List.map_cons, List.map_nil, hescSelf]
    congr 1
  have hred : ∀ f, traditionFilterMatches tradition f =
      (traditionVariations (jsTrim tradition)).any (fun v => ciContainsStr f v) := by
    intro f
    unfold traditionFilterMatches
    simp only [List.any_map, Function.comp_def, unescape_escape]
  refine ⟨?_, ?_, hesc⟩
  · intro f hf
    rw [hred f, hvar]
    simp only [Bool.or_eq_true] at hf
    apply List.any_eq_true.mpr
    rcases hf with (hf | hf) | hf
    · refine ⟨chars "Vīraśaiva", by simp, ?_⟩
      exact isSubstr_map jsToLower f (chars "Vīraśaiva") hf
    · refine ⟨chars "Liṅgāyat", by simp, ?_⟩
      exact isSubstr_map jsToLower f (chars "Liṅgāyat") hf
    · refine ⟨jsTrim tradition, by simp, ?_⟩
      show isSubstr ((jsTrim tradition).map jsToLower) (f.map jsToLower) = true
      rw [h]
      have hmap : (chars "Lingayat").map jsToLower = chars "lingayat" := by decide
      rw [← hmap]
      exact isSubstr_map jsToLower f (chars "Lingayat") hf
  · rw [hred (chars "Vaishnava"), hvar]
    apply List.any_eq_false.mpr
    intro v hv
    simp only [List.mem_cons, List.not_mem_nil, or_false] at hv
    rcases hv with rfl | rfl | rfl | rfl | rfl
    · intro hcontra
      have : isSubstr ((jsTrim tradition).map jsToLower)
          ((chars "Vaishnava").map jsToLower) = true := hcontra
      rw [h] at this
      exact absurd this (by decide)
    · exact (by decide)
    · exact (by decide)
    · exact (by decide)
    · exact (by decide)

theorem C1_witness :
    (jsTrim (chars "Lingayat")).map jsToLower = chars "lingayat" ∧
    traditionFilterMatches (chars "Lingayat") (chars "Vīraśaiva tradition") = true ∧
    traditionFilterMatches (chars "Lingayat") (chars "Vaishnava") = false := by
  have h := C1_lingayat_variant_filter (chars "Lingayat") (by decide)
  exact ⟨by decide, h.1 (chars "Vīraśaiva tradition") (by decide), h.2.1⟩

/-! ### Whitespace and trimming lemmas for the totality claim -/

theorem head_dropWhile_not (p : Char → Bool) :
    ∀ (l : List Char) (c : Char), (l.dropWhile p).head? = some c → p c = false := by
  intro l
  induction l with
  | nil => intro c h; simp at h
  | cons a l ih =>
    intro c h
    by_cases hp : p a
    · rw [List.dropWhile_cons, if_pos hp] at h
      exact ih c h
    · rw [List.dropWhile_cons, if_neg hp] at h
      simp only [List.head?_cons, Option.some.injEq] at h
      subst h
      cases hpa : p a
      · rfl
      · exact absurd hpa hp

theorem getLast_dropWhile_eq (p : Char → Bool) :
    ∀ (l : List Char), l.dropWhile p ≠ [] → (l.dropWhile p).getLast? = l.getLast? := by
  intro l
  induction l with
  | nil => intro h; exact absurd rfl h
  | cons a l ih =>
    intro h
    by_cases hp : p a
    · rw [List.dropWhile_cons, if_pos hp] at h ⊢
      rw [ih h]
      have hl : l ≠ [] := by
        intro he
        subst he
        simp at h
      cases l with
      | nil => exact absurd rfl hl
      | cons b l2 => rw [List.getLast?_cons_cons]
    · rw [List.dropWhile_cons, if_neg hp]

theorem trim_head_not_ws (s : List Char) (c : Char) (h : (jsTrim s).head? = some c) :
    isWsChar c = false := by
  unfold jsTrim jsTrimEnd at h
  rw [List.head?_reverse] at h
  have hne : (jsTrimStart s).reverse.dropWhile isWsChar ≠ [] := by
    intro he
    rw [he] at h
    simp at h
  rw [getLast_dropWhile_eq isWsChar _ hne, List.getLast?_reverse] at h
  exact head_dropWhile_not isWsChar s c h

theorem trim_getLast_not_ws (s : List Char) (c : Char) (h : (jsTrim s).getLast? = some c) :
    isWsChar c = false := by
  unfold jsTrim jsTrimEnd at h
  rw [List.getLast?_eq_head?_reverse, List.reverse_reverse] at h
  exact head_dropWhile_not isWsChar _ c h

theorem jsTrim_fix (s : List Char)
    (h1 : ∀ c, s.head? = some c → isWsChar c = false)
    (h2 : ∀ c, s.getLast? = some c → isWsChar c = false) : jsTrim s = s := by
  have hstart : jsTrimStart s = s := by
    unfold jsTrimStart
    cases s with
    | nil => rfl
    | cons a l =>
      have := h1 a rfl
      rw [List.dropWhile_cons, if_neg (by simp [this])]
  unfold jsTrim
  rw [hstart]
  unfold jsTrimEnd
  cases hr : s.reverse with
  | nil =>
    have hs : s = [] := List.reverse_eq_nil_iff.mp hr
    subst hs
    rfl
  | cons a l =>
    have ha : isWsChar a = false := by
      apply h2
      rw [List.getLast?_eq_head?_reverse, hr]
      rfl
    rw [List.dropWhile_cons, if_neg (by simp [ha]), ← hr, List.reverse_reverse]

theorem jsTrim_idem (s : List Char) : jsTrim (jsTrim s) = jsTrim s :=
  jsTrim_fix (jsTrim s) (trim_head_not_ws s) (trim_getLast_not_ws s)

theorem strip_of_trim_fix (y : List Char) :
    jsTrim (stripTrailingSuffixWord (jsTrim y)) = stripTrailingSuffixWord (jsTrim y) := by
  have key : ∀ z : List Char, jsTrim z = z →
      jsTrim (stripTrailingSuffixWord z) = stripTrailingSuffixWord z := by
    intro z hz
    simp only [stripTrailingSuffixWord]
    split
    next w hfind =>
      split
      next c rest hdrop =>
        split
        next hws =>
          apply jsTrim_fix
          · intro d hd
            rw [List.head?_reverse] at hd
            have hne : (List.drop w.length z.reverse).dropWhile isWsChar ≠ [] := by
              intro he
              rw [he] at hd
              simp at hd
            rw [getLast_dropWhile_eq isWsChar _ hne] at hd
            have hne2 : ¬ z.reverse.length ≤ w.length := by
              intro hle
              have hnil : List.drop w.length z.reverse = [] :=
                List.drop_eq_nil_of_le hle
              rw [hnil] at hdrop
              exact absurd hdrop (by simp)
            rw [List.getLast?_drop, if_neg hne2, List.getLast?_reverse] at hd
            rw [← hz] at hd
            exact trim_head_not_ws z d hd
          · intro d hd
            rw [List.getLast?_eq_head?_reverse, List.reverse_reverse] at hd
            exact head_dropWhile_not isWsChar _ d hd
        next hws => exact hz
      next hdrop => exact hz
    next hfind => exact hz
  exact key (jsTrim y) (jsTrim_idem y)

theorem countNonWs_dropWhile_ws (l : List Char) :
    countNonWs (l.dropWhile isWsChar) = countNonWs l := by
  induction l with
  | nil => rfl
  | cons a l ih =>
    by_cases hp : isWsChar a
    · rw [List.dropWhile_cons, if_pos hp]
      unfold countNonWs at ih ⊢
      rw [List.countP_cons]
      simp [hp, ih]
    · rw [List.dropWhile_cons, if_neg hp]

theorem countNonWs_collapseWsGo (l : List Char) :
    ∀ b : Bool, countNonWs (collapseWsGo b l) = countNonWs l := by
  induction l with
  | nil => intro b; rfl
  | cons c rest ih =>
    intro b
    unfold countNonWs at ih ⊢
    have hsp : isWsChar ' ' = true := rfl
    by_cases hc : isWsChar c
    · cases b <;> simp [collapseWsGo, hc, hsp, List.countP_cons, ih]
    · cases b <;> simp [collapseWsGo, hc, List.countP_cons, ih]

theorem countNonWs_le_length_collapseWs (s : List Char) :
    countNonWs s ≤ (collapseWs s).length := by
  have h1 : countNonWs (collapseWs s) = countNonWs s := countNonWs_collapseWsGo s false
  calc countNonWs s = countNonWs (collapseWs s) := h1.symm
    _ ≤ (collapseWs s).length := List.countP_le_length _

theorem mem_of_getLastQ : ∀ (l : List Char) (b : Char), l.getLast? = some b → b ∈ l := by
  intro l
  induction l with
  | nil => intro b h; simp at h
  | cons a l ih =>
    intro b h
    cases l with
    | nil =>
      simp only [List.getLast?_singleton, Option.some.injEq] at h
      subst h
      exact List.mem_singleton.mpr rfl
    | cons c l2 =>
      rw [List.getLast?_cons_cons] at h
      exact List.mem_cons_of_mem a (ih b h)

theorem countNonWs_ge_two (s : List Char) (hlen : 2 ≤ s.length)
    (h1 : ∀ c, s.head? = some c → isWsChar c = false)
    (h2 : ∀ c, s.getLast? = some c → isWsChar c = false) : 2 ≤ countNonWs s := by
  cases s with
  | nil => simp at hlen
  | cons a rest =>
    have ha : isWsChar a = false := h1 a rfl
    have hrest : rest ≠ [] := by
      intro he
      subst he
      simp at hlen
    obtain ⟨b, hb⟩ : ∃ b, rest.getLast? = some b := by
      cases hg : rest.getLast? with
      | some b => exact ⟨b, rfl⟩
      | none => exact absurd (List.getLast?_eq_none_iff.mp hg) hrest
    have hb2 : isWsChar b = false := by
      apply h2
      cases rest with
      | nil => exact absurd rfl hrest
      | cons c l2 =>
        rw [List.getLast?_cons_cons]
        exact hb
    have hbmem : b ∈ rest := mem_of_getLastQ rest b hb
    have hpos : 0 < rest.countP (fun c => !isWsChar c) := by
      apply List.countP_pos_iff.mpr
      exact ⟨b, hbmem, by simp [hb2]⟩
    have hcc : List.countP (fun c => !isWsChar c) (a :: rest) =
        List.countP (fun c => !isWsChar c) rest + 1 := by
      rw [List.countP_cons]
      simp [ha]
    unfold countNonWs
    rw [hcc]
    omega

/-! ### Totality and token shape of the compound parser -/

/-- A well-formed output token: a non-null string of length at least
two. -/
def GoodTok (o : Option (List Char)) : Prop := ∃ t, o = some t ∧ 2 ≤ t.length

theorem mem_setAdd {α : Type} [BEq α] [LawfulBEq α] {s : List α} {x y : α}
    (h : y ∈ setAdd s x) : y ∈ s ∨ y = x := by
  unfold setAdd at h
  split at h
  · exact Or.inl h
  · rcases List.mem_append.mp h with h | h
    · exact Or.inl h
    · exact Or.inr (List.mem_singleton.mp h)

theorem foldl_good_inv {α : Type} (f : List (Option (List Char)) → α → List (Option (List Char)))
    (hf : ∀ acc x, (∀ y ∈ acc, GoodTok y) → ∀ o ∈ f acc x, GoodTok o) :
    ∀ (l : List α) (init : List (Option (List Char))),
      (∀ y ∈ init, GoodTok y) → ∀ o ∈ List.foldl f init l, GoodTok o := by
  intro l
  induction l with
  | nil => intro init hinit o ho; exact hinit o ho
  | cons a l ih =>
    intro init hinit o ho
    rw [List.foldl_cons] at ho
    exact ih (f init a) (hf init a hinit) o ho

theorem normalizeTraditionName_good (x : List Char) (ht : jsTrim x = x)
    (hlen : 2 ≤ x.length) : GoodTok (normalizeTraditionName x) := by
  have hx : ¬ x.isEmpty = true := by
    cases x with
    | nil => simp at hlen
    | cons a l => simp
  have hh1 : ∀ c, x.head? = some c → isWsChar c = false := by
    intro c hc
    rw [← ht] at hc
    exact trim_head_not_ws x c hc
  have hh2 : ∀ c, x.getLast? = some c → isWsChar c = false := by
    intro c hc
    rw [← ht] at hc
    exact trim_getLast_not_ws x c hc
  have hcount : 2 ≤ countNonWs x := countNonWs_ge_two x hlen hh1 hh2
  have hclen : 2 ≤ (cleanTraditionToken x).length := by
    unfold cleanTraditionToken
    rw [ht]
    exact Nat.le_trans hcount (countNonWs_le_length_collapseWs x)
  have h4 : ¬ (cleanTraditionToken x).length < 2 := by omega
  cases hlook : lookupTable tradNormTable ((cleanTraditionToken x).map jsToLower) with
  | some canon =>
    have hcanonlen : 2 ≤ canon.length := by
      unfold lookupTable at hlook
      cases hf : tradNormTable.find?
          (fun kv => kv.1 == (cleanTraditionToken x).map jsToLower) with
      | none => rw [hf] at hlook; simp at hlook
      | some kv =>
        rw [hf] at hlook
        simp only [Option.map_some', Option.some.injEq] at hlook
        subst hlook
        have hmem := List.mem_of_find?_eq_some hf
        have hall : tradNormTable.all (fun kv => decide (2 ≤ kv.2.length)) = true := by
          decide
        have := List.all_eq_true.mp hall kv hmem
        simpa using this
    refine ⟨canon, ?_, hcanonlen⟩
    simp only [normalizeTraditionName, hx, if_false, h4, hlook]
    simp
  | none =>
    refine ⟨cleanTraditionToken x, ?_, hclen⟩
    simp only [normalizeTraditionName, hx, if_false, h4, hlook]
    simp

theorem langAddToken_good : ∀ (acc : List (Option (List Char))) (part : List Char),
    (∀ y ∈ acc, GoodTok y) → ∀ o ∈ langAddToken acc part, GoodTok o := by
  intro acc part hacc o ho
  simp only [langAddToken] at ho
  split at ho
  · exact hacc o ho
  · split at ho
    · exact hacc o ho
    · split at ho
      · exact hacc o ho
      · split at ho
        next n hn =>
          split at ho
          next hg =>
            rcases mem_setAdd ho with h | h
            · exact hacc o h
            · subst h
              exact ⟨n, rfl, by have := hg.2; omega⟩
          next => exact hacc o ho
        next hn => exact hacc o ho

theorem tradAddAlt_good : ∀ (acc : List (Option (List Char))) (alt : List Char),
    (∀ y ∈ acc, GoodTok y) → ∀ o ∈ tradAddAlt acc alt, GoodTok o := by
  intro acc alt hacc o ho
  simp only [tradAddAlt] at ho
  split at ho
  next hg =>
    rcases mem_setAdd ho with h | h
    · exact hacc o h
    · subst h
      exact normalizeTraditionName_good (jsTrim alt) (jsTrim_idem alt)
        (by have := hg.2.1; omega)
  next => exact hacc o ho

theorem tradAddSub_good : ∀ (acc : List (Option (List Char))) (subPart : List Char),
    (∀ y ∈ acc, GoodTok y) → ∀ o ∈ tradAddSub acc subPart, GoodTok o := by
  intro acc subPart hacc o ho
  simp only [tradAddSub] at ho
  split at ho
  next pre parenRaw hmp =>
    have hr1 : ∀ y ∈ (if ¬ (jsTrim pre).isEmpty = true ∧ 2 < (jsTrim pre).length then
        setAdd acc (normalizeTraditionName (jsTrim pre)) else acc), GoodTok y := by
      split
      next hg =>
        intro y hy
        rcases mem_setAdd hy with h | h
        · exact hacc y h
        · subst h
          exact normalizeTraditionName_good (jsTrim pre) (jsTrim_idem pre)
            (by have := hg.2; omega)
      next => exact hacc
    split at ho
    · exact foldl_good_inv tradAddAlt tradAddAlt_good _ _ hr1 o ho
    · exact hr1 o ho
  next hmp =>
    split at ho
    next hg =>
      rcases mem_setAdd ho with h | h
      · exact hacc o h
      · subst h
        exact normalizeTraditionName_good _ (strip_of_trim_fix (removeParens subPart))
          (by have := hg.2; omega)
    next => exact hacc o ho

theorem tradAddPart_good : ∀ (acc : List (Option (List Char))) (part : List Char),
    (∀ y ∈ acc, GoodTok y) → ∀ o ∈ tradAddPart acc part, GoodTok o := by
  intro acc part hacc o ho
  simp only [tradAddPart] at ho
  exact foldl_good_inv tradAddSub tradAddSub_good _ acc hacc o ho

theorem parseLanguageValue_good : ∀ (v : JsVal) (o : Option (List Char)),
    o ∈ parseLanguageValue v → GoodTok o := by
  intro v o ho
  cases v with
  | vnull => simp [parseLanguageValue] at ho
  | vother => simp [parseLanguageValue] at ho
  | vstr s =>
    simp only [parseLanguageValue] at ho
    split at ho
    · simp at ho
    · simp only [parseLanguageStr] at ho
      exact foldl_good_inv langAddToken langAddToken_good _ []
        (fun y hy => absurd hy (List.not_mem_nil y)) o ho

theorem parseTraditionValue_good : ∀ (v : JsVal) (o : Option (List Char)),
    o ∈ parseTraditionValue v → GoodTok o := by
  intro v o ho
  cases v with
  | vnull => simp [parseTraditionValue] at ho
  | vother => simp [parseTraditionValue] at ho
  | vstr s =>
    simp only [parseTraditionValue] at ho
    split at ho
    · simp at ho
    · simp only [parseTraditionStr] at ho
      exact foldl_good_inv tradAddPart tradAddPart_good _ []
        (fun y hy => absurd hy (List.not_mem_nil y)) o ho

/-- C8: the Compound Value Parser is total: null, non-string values, and
the empty string give the empty token set, and on every input of either
kind every element of the returned set is a non-null token of length at
least two; in particular no execution path yields an error value. -/
theorem C8_parser_total :
    (∀ k : FieldKind,
      parseCompound k JsVal.vnull = [] ∧ parseCompound k JsVal.vother = [] ∧
      parseCompound k (JsVal.vstr []) = []) ∧
    (∀ (k : FieldKind) (v : JsVal) (o : Option (List Char)),
      o ∈ parseCompound k v → ∃ t, o = some t ∧ 2 ≤ t.length) := by
  constructor
  · intro k
    cases k <;> exact ⟨rfl, rfl, rfl⟩
  · intro k v o ho
    cases k with
    | language => exact parseLanguageValue_good v o ho
    | tradition => exact parseTraditionValue_good v o ho

theorem C8_witness :
    some (chars "Hindi") ∈ parseCompound FieldKind.language (JsVal.vstr (chars "Hindi")) ∧
    ∃ t, (some (chars "Hindi") : Option (List Char)) = some t ∧ 2 ≤ t.length :=
  ⟨by decide,
   C8_parser_total.2 FieldKind.language (JsVal.vstr (chars "Hindi"))
     (some (chars "Hindi")) (by decide)⟩

end Bhakti
